import Mathlib

/-!
A shallow embedding of the `charm-apt-mirror` repository (files
`src/utils.py` and `src/charm.py`) and proofs about it.

Modelling conventions:
* Filesystem paths are lists of path components (`List String`), always
  absolute.  Joining, splitting and `os.path.relpath` are modelled at the
  component level with explicit slash splitting of Python strings.
* Python `set` values become `Finset`.
* Python text lines are given without their trailing newline; `str.strip`
  (which would remove the newline anyway) is still applied.
-/

namespace AptMirror

/-- Python `s.startswith(pre)`, on character lists. -/
def pyStartsWith (s pre : String) : Bool :=
  pre.data.isPrefixOf s.data

/-- Python `s.endswith(suf)`, on character lists. -/
def pyEndsWith (s suf : String) : Bool :=
  suf.data.reverse.isPrefixOf s.data.reverse

/-- The suffix of `s` after its first `n` characters (Python `s[n:]`). -/
def pyDropChars (s : String) (n : Nat) : String :=
  String.mk (s.data.drop n)

/-- Python whitespace characters (ASCII fragment), as used by `str.strip`. -/
def isPySpace (c : Char) : Bool :=
  c == ' ' || c == '\t' || c == '\n' || c == '\r' || c == '\x0b' || c == '\x0c'

/-- Python `str.strip()`: drop whitespace from both ends. -/
def pyStrip (s : String) : String :=
  String.mk (((s.data.dropWhile isPySpace).reverse.dropWhile isPySpace).reverse)

/-- Left-to-right, non-overlapping removal of every occurrence of `p`,
the character-level engine of Python `str.replace(p, "")`.  The fuel
argument (instantiated with the input length, enough for nonempty `p`)
keeps the recursion structural. -/
def removeAllFuel (p : List Char) : Nat → List Char → List Char
  | 0, l => l
  | _ + 1, [] => []
  | fuel + 1, c :: rest =>
      if p.isPrefixOf (c :: rest) then
        removeAllFuel p fuel (List.drop (p.length - 1) rest)
      else
        c :: removeAllFuel p fuel rest

/-- Python `s.replace(pat, "")`. -/
def pyRemoveAll (s pat : String) : String :=
  if pat = "" then s else String.mk (removeAllFuel pat.data s.data.length s.data)

/-- Split a character list on `/`, producing the raw chunks. -/
def splitSlash : List Char → List Char → List String
  | cur, [] => [String.mk cur.reverse]
  | cur, c :: rest =>
      if c = '/' then String.mk cur.reverse :: splitSlash [] rest
      else splitSlash (c :: cur) rest

/-- The path components of a Python path string: split on `/`, with empty
chunks and single dots collapsed, as `pathlib.PurePath` parsing does. -/
def pathComps (s : String) : List String :=
  (splitSlash [] s.data).filter (fun c => c ≠ "" && c ≠ ".")

/-- `pathlib.Path(base, name)`: `name` is split into components and appended
to `base`, except that an absolute `name` (leading `/`) discards `base`. -/
def pyPathJoin (base : List String) (name : String) : List String :=
  if pyStartsWith name "/" then pathComps name else base ++ pathComps name

/-- `utils._locate_packages_from_index`, given the lines of the index file:
the set of `Path(archive_root, line.strip().replace("Filename: ", ""))` for
each line that starts with `"Filename: "`. -/
def _locate_packages_from_index (lines : List String) (archive_root : List String) :
    Finset (List String) :=
  ((lines.filter (fun l => pyStartsWith l "Filename: ")).map
    (fun l => pyPathJoin archive_root (pyRemoveAll (pyStrip l) "Filename: "))).toFinset

/-- `utils.find_packages_by_indices` on a list of index files, each given by
its lines: the union of the per-index package sets. -/
def find_packages_by_indices (indices : List (List String)) (base : List String) :
    Finset (List String) :=
  indices.foldl (fun acc lines => acc ∪ _locate_packages_from_index lines base) ∅

/-- The index parser as the specification words it: for every line beginning
with the literal prefix `"Filename: "`, take the trimmed remainder of the
line (after that prefix) and join it onto the archive root. -/
def specIndexPackages (lines : List String) (archive_root : List String) :
    Finset (List String) :=
  ((lines.filter (fun l => pyStartsWith l "Filename: ")).map
    (fun l => pyPathJoin archive_root (pyStrip (pyDropChars l 10)))).toFinset

/-! ### Lexicographic ordering of paths

Python sorts `pathlib.Path` values by comparing their component lists
lexicographically, with string components compared by code points.  The
boolean orders below model that and reduce in the kernel. -/

/-- Strict lexicographic order on character lists (Python string `<`). -/
def strLtb : List Char → List Char → Bool
  | [], [] => false
  | [], _ :: _ => true
  | _ :: _, [] => false
  | a :: as, b :: bs => if a = b then strLtb as bs else decide (a.toNat < b.toNat)

/-- Lexicographic order on component lists (Python `Path` `<=`). -/
def pathLeb : List String → List String → Bool
  | [], _ => true
  | _ :: _, [] => false
  | a :: as, b :: bs => if a = b then pathLeb as bs else strLtb a.data b.data

/-- The ordering relation used when Python sorts paths. -/
def rPath (a b : List String) : Prop := pathLeb a b = true

instance : DecidableRel rPath := fun a b => decEq (pathLeb a b) true

/-- Python `sorted` on a list of paths. -/
def sortPaths (l : List (List String)) : List (List String) :=
  l.insertionSort rPath

/-! ### Filesystem model

A filesystem is a finite list of absolute paths (component lists) with the
node stored at each path.  Directories needed by the charm are listed
explicitly; a text file carries its lines; a symlink carries its absolute,
already-resolved target.  `glob`/`rglob` never follow symlinks into new
subtrees, so matching is plain path filtering over the declared entries. -/

inductive FsNode
  | dir : FsNode
  | file (lines : List String) : FsNode
  | symlink (target : List String) : FsNode
deriving DecidableEq

structure FileSys where
  entries : List (List String × FsNode)
deriving DecidableEq

/-- The node stored at `p`, if any. -/
def lookupNode (fs : FileSys) (p : List String) : Option FsNode :=
  List.lookup p fs.entries

/-- `path.glob("**/X")`-style matching: every entry strictly below `base`
whose final component satisfies `test`. -/
def globRec (fs : FileSys) (base : List String) (test : String → Bool) :
    List (List String) :=
  (fs.entries.map Prod.fst).filter
    (fun p => base.isPrefixOf p && p != base && test (p.getLastD ""))

/-- `path.glob("X")`-style matching for a non-recursive pattern: the direct
children of `base` whose name satisfies `test`. -/
def globChildren (fs : FileSys) (base : List String) (test : String → Bool) :
    List (List String) :=
  (fs.entries.map Prod.fst).filter
    (fun p => p.length == base.length + 1 && base.isPrefixOf p
      && test (p.getLastD ""))

/-- `pathlib.Path.parent` for absolute component paths. -/
def parentDir (p : List String) : List String := p.dropLast

/-- `utils._get_archive_root`: the parent of `pool`, resolving `pool` first
when it is a symlink (the target is stored absolute and resolved). -/
def _get_archive_root (fs : FileSys) (pool : List String) : List String :=
  match lookupNode fs pool with
  | some (FsNode.symlink target) => parentDir target
  | _ => parentDir pool

/-- The de-duplication loop of `utils._get_package_indices`: keep each path
whose parent directory has not been seen yet. -/
def dedupByParent : List (List String) → List (List String) → List (List String)
  | [], _ => []
  | p :: rest, parents =>
      if parentDir p ∈ parents then dedupByParent rest parents
      else p :: dedupByParent rest (parentDir p :: parents)

/-- `utils._get_package_indices`: sort the recursive `Packages*` matches
under `dists` and keep the first file of each containing directory. -/
def _get_package_indices (fs : FileSys) (dists : List String) :
    List (List String) :=
  dedupByParent (sortPaths (globRec fs dists (fun n => pyStartsWith n "Packages"))) []

/-- `utils.locate_package_indices`: for each `dists` directory under `path`,
the archive root derived from its sibling `pool` and its package indices. -/
def locate_package_indices (fs : FileSys) (path : List String) :
    List (List String × List (List String)) :=
  (globRec fs path (fun n => n == "dists")).map
    (fun dists =>
      (_get_archive_root fs (parentDir dists ++ ["pool"]),
        _get_package_indices fs dists))

/-- The lines of the text file at `p` (empty for non-files). -/
def readLines (fs : FileSys) (p : List String) : List String :=
  match lookupNode fs p with
  | some (FsNode.file lines) => lines
  | _ => []

/-- `utils.find_packages_by_indices` applied to index files on disk. -/
def find_packages_by_indices_fs (fs : FileSys) (indices : List (List String))
    (base : List String) : Finset (List String) :=
  indices.foldl (fun acc i => acc ∪ _locate_packages_from_index (readLines fs i) base) ∅

/-- `AptMirrorCharm._list_snapshots`: entries directly under the base path
whose name starts with `snapshot-`. -/
def _list_snapshots (fs : FileSys) (basePath : List String) : List (List String) :=
  globChildren fs basePath (fun n => pyStartsWith n "snapshot-")

/-- The packages referenced by the indices found under one tree, as
accumulated by the inner loop of `AptMirrorCharm._check_packages`. -/
def treeIndexedPackages (fs : FileSys) (tree : List String) : Finset (List String) :=
  (locate_package_indices fs tree).foldl
    (fun acc bi => acc ∪ find_packages_by_indices_fs fs bi.2 bi.1) ∅

/-- The recursive scan for `.deb` files under the live mirror path in
`AptMirrorCharm._check_packages`. -/
def debsUnder (fs : FileSys) (mirrorPath : List String) : Finset (List String) :=
  (globRec fs mirrorPath (fun n => pyEndsWith n ".deb")).toFinset

/-- `AptMirrorCharm._check_packages`: the `.deb` files under the live mirror
minus every package referenced by an index of the live mirror or of any
snapshot. -/
def _check_packages (fs : FileSys) (basePath : List String) : Finset (List String) :=
  let mirror_path := basePath ++ ["mirror"]
  let trees := _list_snapshots fs basePath ++ [mirror_path]
  let indexed_packages := trees.foldl (fun acc t => acc ∪ treeIndexedPackages fs t) ∅
  debsUnder fs mirror_path \ indexed_packages

/-! ### A sample mirror tree

A live mirror whose current index references `a.deb`, a stale `c.deb`
referenced by no index, and one snapshot whose copied index still
references `b.deb` through its `pool` symlink into the live mirror. -/

/-- A concrete mirror tree used to instantiate the theorems. -/
def sampleFS : FileSys :=
  ⟨[(["srv"], FsNode.dir),
    (["srv", "mirror"], FsNode.dir),
    (["srv", "mirror", "m"], FsNode.dir),
    (["srv", "mirror", "m", "dists"], FsNode.dir),
    (["srv", "mirror", "m", "dists", "Packages"],
      FsNode.file ["Filename: pool/a.deb"]),
    (["srv", "mirror", "m", "dists", "Packages.gz"],
      FsNode.file ["Filename: pool/a.deb"]),
    (["srv", "mirror", "m", "pool"], FsNode.dir),
    (["srv", "mirror", "m", "pool", "a.deb"], FsNode.file []),
    (["srv", "mirror", "m", "pool", "b.deb"], FsNode.file []),
    (["srv", "mirror", "m", "pool", "c.deb"], FsNode.file []),
    (["srv", "snapshot-1"], FsNode.dir),
    (["srv", "snapshot-1", "m"], FsNode.dir),
    (["srv", "snapshot-1", "m", "dists"], FsNode.dir),
    (["srv", "snapshot-1", "m", "dists", "Packages"],
      FsNode.file ["Filename: pool/b.deb"]),
    (["srv", "snapshot-1", "m", "pool"],
      FsNode.symlink ["srv", "mirror", "m", "pool"])]⟩

/-! ### `utils.clean_packages`

Each path to be unlinked either is present, is already missing (so
`Path.unlink` raises `FileNotFoundError`, which the loop catches), or
fails with some other `OSError` such as a permission error (uncaught, so
it propagates and aborts the loop). -/

inductive FileMode
  | present : FileMode
  | missing : FileMode
  | noPerm : FileMode
deriving DecidableEq

/-- One run of `utils.clean_packages`: the list of paths whose unlink was
actually attempted, and the outcome — `Except.error ()` when an uncaught
exception escaped, otherwise `Except.ok` of the returned boolean. -/
def clean_packages_run :
    List (List String) → (List String → FileMode) → List (List String) × Except Unit Bool
  | [], _ => ([], Except.ok true)
  | p :: rest, mode =>
      match mode p with
      | FileMode.present =>
          let r := clean_packages_run rest mode
          (p :: r.1, r.2)
      | FileMode.missing =>
          let r := clean_packages_run rest mode
          (p :: r.1, r.2.map (fun _ => false))
      | FileMode.noPerm => ([p], Except.error ())

/-! ### `utils.convert_bytes`

The Python loop divides a float by `1024` up to four times.  For inputs
below `2^53` every intermediate value is exactly representable in binary
floating point (division by `2^10` only shifts the exponent), so the
embedding uses exact rational arithmetic; `"{:.1f}"` formatting is
correctly-rounded decimal output with ties to even. -/

/-- Round to the nearest integer, ties to even (IEEE/`format` rounding). -/
def roundHalfEven (x : ℚ) : ℤ :=
  let f := Rat.floor x
  if x - f < 1 / 2 then f
  else if 1 / 2 < x - f then f + 1
  else if f % 2 = 0 then f else f + 1

/-- Python `"{:.1f}".format(q)` for nonnegative `q`. -/
def fmt1 (q : ℚ) : String :=
  let n := roundHalfEven (q * 10)
  toString (n / 10) ++ "." ++ toString (n % 10)

/-- The unit ladder of `utils.convert_bytes`. -/
def convertBytesUnits : List String := ["bytes", "KB", "MB", "GB", "TB"]

/-- The loop of `utils.convert_bytes`: emit at the first unit where the
scaled value is below 1024, otherwise divide and move to the next unit;
`none` models Python falling off the loop and returning `None`. -/
def convertBytesLoop : List String → ℚ → Option String
  | [], _ => none
  | u :: us, num =>
      if num < 1024 then some (fmt1 num ++ " " ++ u)
      else convertBytesLoop us (num / 1024)

/-- `utils.convert_bytes`. -/
def convert_bytes (num : ℚ) : Option String :=
  convertBytesLoop convertBytesUnits num

/-- The smallest unit index at which `n` scales below 1024 (spec side). -/
def specUnitIdx (n : Nat) : Nat :=
  if n < 1024 then 0
  else if n < 1024 ^ 2 then 1
  else if n < 1024 ^ 3 then 2
  else if n < 1024 ^ 4 then 3
  else 4

/-- The unit name at a ladder position. -/
def unitName (k : Nat) : String := convertBytesUnits.getD k ""

/-! ### `AptMirrorCharm._build_subtree`

`os.path.relpath` on relative paths without `..` is component arithmetic:
drop the common prefix, prepend one `..` per leftover component of the
start path.  The `strip-mirror-name` test is `re.findall(r"^{}".format(m),
subtree)`, i.e. an anchored regex match of the hostname; the model treats
every pattern character as a literal except `.`, which matches any
character — faithful for hostname patterns, whose only regex
metacharacter is the dot. -/

/-- Drop the longest common prefix of two component lists. -/
def dropCommon : List String → List String → List String × List String
  | a :: as, b :: bs =>
      if a = b then dropCommon as bs else (a :: as, b :: bs)
  | as, bs => (as, bs)

/-- `os.path.relpath` at the component level. -/
def relComps (path start : List String) : List String :=
  let pr := dropCommon path start
  List.replicate pr.2.length ".." ++ pr.1

/-- Join components back into a path string (`os.path.relpath` yields `.`
for an empty relative path). -/
def joinComps : List String → String
  | [] => "."
  | c :: cs => cs.foldl (fun acc d => acc ++ "/" ++ d) c

/-- `os.path.relpath(path, start)` for relative inputs without `..`. -/
def relpathStr (path start : String) : String :=
  joinComps (relComps (pathComps path) (pathComps start))

/-- Anchored regex match (`re.findall(r"^pat", s) != []`) for patterns
whose only metacharacter is `.`. -/
def regexAnchorMatch : List Char → List Char → Bool
  | [], _ => true
  | _ :: _, [] => false
  | p :: ps, c :: cs => (p == '.' || p == c) && regexAnchorMatch ps cs

/-- Python `pat in s` (substring containment). -/
def containsSubAux (p : List Char) : List Char → Bool
  | [] => p.isEmpty
  | c :: rest => p.isPrefixOf (c :: rest) || containsSubAux p rest

/-- Python `pat in s` on strings. -/
def pyContainsSub (s pat : String) : Bool := containsSubAux pat.data s.data

/-- `AptMirrorCharm._build_subtree`.  `stripName` is the truthiness of the
`strip-mirror-name` option, `stripPath` the `strip-mirror-path` option when
present and truthy, `mirrors` the known mirror hostnames. -/
def _build_subtree (stripName : Bool) (stripPath : Option String)
    (mirrors : List String) (root path : String) : String :=
  let subtree := relpathStr root path
  let subtree :=
    if stripName then
      mirrors.foldl
        (fun st m => if regexAnchorMatch m.data st.data then relpathStr st m else st)
        subtree
    else subtree
  match stripPath with
  | some sp => if pyContainsSub subtree sp then pyRemoveAll subtree sp else subtree
  | none => subtree

/-! ### Snapshot naming (`AptMirrorCharm._get_snapshot_name`)

`datetime.now()` samples the system's local wall clock, while
`datetime.utcnow()` would sample UTC; a clock state carries both so the
two readings can be compared. -/

structure PyDateTime where
  year : Nat
  month : Nat
  day : Nat
  hour : Nat
  minute : Nat
  second : Nat
deriving DecidableEq

/-- The system clock at the moment the action runs: the UTC reading and
the local-timezone reading. -/
structure SysClock where
  utcNow : PyDateTime
  localNow : PyDateTime
deriving DecidableEq

/-- Decimal digits of `n`, most significant first (fuel-structural). -/
def decDigitsFuel : Nat → Nat → List Char
  | 0, _ => []
  | fuel + 1, n =>
      if n < 10 then [Char.ofNat (48 + n)]
      else decDigitsFuel fuel (n / 10) ++ [Char.ofNat (48 + n % 10)]

/-- Decimal digits of `n` (Python `str(n)` for naturals). -/
def decDigits (n : Nat) : List Char := decDigitsFuel (n + 1) n

/-- Zero-pad a digit string on the left to width `w` (`strftime` fields). -/
def zeroPad (w : Nat) (s : List Char) : List Char :=
  List.replicate (w - s.length) '0' ++ s

/-- `strftime("%Y%m%d%H%M%S")` of a datetime value. -/
def strftimeYmdHMS (t : PyDateTime) : String :=
  String.mk (zeroPad 4 (decDigits t.year) ++ zeroPad 2 (decDigits t.month)
    ++ zeroPad 2 (decDigits t.day) ++ zeroPad 2 (decDigits t.hour)
    ++ zeroPad 2 (decDigits t.minute) ++ zeroPad 2 (decDigits t.second))

/-- `AptMirrorCharm._get_snapshot_name`: `datetime.now()` (the local
reading), formatted and prefixed. -/
def _get_snapshot_name (clock : SysClock) : String :=
  "snapshot-" ++ strftimeYmdHMS clock.localNow

/-- The published pointer name used throughout `charm.py`. -/
def publishName : String := "publish"

/-! ### Snapshot action traces (`_on_publish_snapshot_action`,
`_on_delete_snapshot_action`)

An action either fails with a message before touching the filesystem, or
performs a sequence of filesystem operations; the trace records them. -/

inductive FsOp
  | unlinkOp (path : String) : FsOp
  | symlinkOp (src dst : String) : FsOp
  | rmtreeOp (path : String) : FsOp
deriving DecidableEq

/-- `AptMirrorCharm._on_publish_snapshot_action`: `snapshotIsDir` is
`os.path.isdir` of the named snapshot path, `publishIsLink` is
`os.path.islink` of the publish path. -/
def _on_publish_snapshot_action (basePath name : String)
    (snapshotIsDir publishIsLink : Bool) : Except String (List FsOp) :=
  let snapshot_path := basePath ++ "/" ++ name
  let publish_path := basePath ++ "/" ++ publishName
  if !snapshotIsDir then Except.error "Snapshot does not exist"
  else
    Except.ok ((if publishIsLink then [FsOp.unlinkOp publish_path] else [])
      ++ [FsOp.symlinkOp snapshot_path publish_path])

/-- `AptMirrorCharm._on_delete_snapshot_action`. -/
def _on_delete_snapshot_action (basePath name : String) :
    Except String (List FsOp) :=
  if !(pyStartsWith name "snapshot-") then
    Except.error ("Invalid snapshot name: " ++ name)
  else Except.ok [FsOp.rmtreeOp (basePath ++ "/" ++ name)]

/-! ### Properties of the path ordering -/

theorem char_toNat_inj {a b : Char} (h : a.toNat = b.toNat) : a = b :=
  Char.eq_of_val_eq (UInt32.eq_of_val_eq (Fin.ext h))

theorem strLtb_total {a b : List Char} (hne : a ≠ b) :
    strLtb a b = true ∨ strLtb b a = true := by
  induction a generalizing b with
  | nil =>
    cases b with
    | nil => exact absurd rfl hne
    | cons y ys => left; rfl
  | cons x xs ih =>
    cases b with
    | nil => right; rfl
    | cons y ys =>
      by_cases hxy : x = y
      · subst hxy
        have hys : xs ≠ ys := fun h => hne (by rw [h])
        rcases ih hys with h | h
        · left; simpa [strLtb] using h
        · right; simpa [strLtb] using h
      · have hnat : x.toNat ≠ y.toNat := fun h => hxy (char_toNat_inj h)
        rcases Nat.lt_or_ge x.toNat y.toNat with h | h
        · left; simp [strLtb, hxy, h]
        · right
          have hyn : y ≠ x := fun h => hxy h.symm
          have : y.toNat < x.toNat := lt_of_le_of_ne h (fun h => hnat h.symm)
          simp [strLtb, hyn, this]

theorem strLtb_irrefl (a : List Char) : strLtb a a = false := by
  induction a with
  | nil => rfl
  | cons x xs ih => simpa [strLtb] using ih

theorem strLtb_trans {a b c : List Char} (hab : strLtb a b = true)
    (hbc : strLtb b c = true) : strLtb a c = true := by
  induction a generalizing b c with
  | nil =>
    cases c with
    | nil =>
      cases b with
      | nil => exact hbc
      | cons y ys => simp [strLtb] at hbc
    | cons z zs => rfl
  | cons x xs ih =>
    cases b with
    | nil => simp [strLtb] at hab
    | cons y ys =>
      cases c with
      | nil => simp [strLtb] at hbc
      | cons z zs =>
        by_cases hxy : x = y <;> by_cases hyz : y = z
        · subst hxy; subst hyz
          simp only [strLtb, if_pos rfl] at hab hbc ⊢
          exact ih hab hbc
        · subst hxy
          simpa [strLtb, hyz] using hbc
        · subst hyz
          simpa [strLtb, hxy] using hab
        · simp only [strLtb, if_neg hxy] at hab
          simp only [strLtb, if_neg hyz] at hbc
          have hlt : x.toNat < z.toNat :=
            Nat.lt_trans (of_decide_eq_true hab) (of_decide_eq_true hbc)
          have hxz : x ≠ z := by
            intro h; subst h
            exact absurd rfl (Nat.ne_of_lt hlt)
          simp [strLtb, hxz, hlt]

theorem strLtb_asymm {a b : List Char} (hab : strLtb a b = true) :
    strLtb b a = false := by
  by_contra h
  have hba : strLtb b a = true := by
    cases hn : strLtb b a with
    | false => exact absurd hn h
    | true => rfl
  have := strLtb_trans hab hba
  rw [strLtb_irrefl] at this
  exact Bool.false_ne_true this

theorem string_data_inj {a b : String} (h : a.data = b.data) : a = b := by
  cases a; cases b; exact congrArg String.mk h

theorem pathLeb_refl (a : List String) : pathLeb a a = true := by
  induction a with
  | nil => rfl
  | cons x xs ih => simpa [pathLeb] using ih

theorem pathLeb_total (a b : List String) :
    pathLeb a b = true ∨ pathLeb b a = true := by
  induction a generalizing b with
  | nil => left; rfl
  | cons x xs ih =>
    cases b with
    | nil => right; rfl
    | cons y ys =>
      by_cases hxy : x = y
      · subst hxy
        rcases ih ys with h | h
        · left; simpa [pathLeb] using h
        · right; simpa [pathLeb] using h
      · have hdata : x.data ≠ y.data := fun h => hxy (string_data_inj h)
        have hyx : y ≠ x := fun h => hxy h.symm
        rcases strLtb_total hdata with h | h
        · left; simp [pathLeb, hxy, h]
        · right; simp [pathLeb, hyx, h]

theorem pathLeb_trans {a b c : List String} (hab : pathLeb a b = true)
    (hbc : pathLeb b c = true) : pathLeb a c = true := by
  induction a generalizing b c with
  | nil => rfl
  | cons x xs ih =>
    cases b with
    | nil => simp [pathLeb] at hab
    | cons y ys =>
      cases c with
      | nil => simp [pathLeb] at hbc
      | cons z zs =>
        by_cases hxy : x = y <;> by_cases hyz : y = z
        · subst hxy; subst hyz
          simp only [pathLeb, if_pos rfl] at hab hbc ⊢
          exact ih hab hbc
        · subst hxy
          simpa [pathLeb, hyz] using hbc
        · subst hyz
          simpa [pathLeb, hxy] using hab
        · simp only [pathLeb, if_neg hxy] at hab
          simp only [pathLeb, if_neg hyz] at hbc
          have hxz : x ≠ z := by
            intro h; subst h
            have := strLtb_asymm (strLtb_trans hab hbc)
            rw [strLtb_irrefl] at this
            exact absurd (strLtb_trans hab hbc)
              (by rw [strLtb_irrefl]; exact Bool.false_ne_true)
          simp [pathLeb, hxz, strLtb_trans hab hbc]

/-! ### Properties of the de-duplication loop -/

theorem mem_of_mem_dedupByParent {l parents : List (List String)} {p : List String}
    (hp : p ∈ dedupByParent l parents) : p ∈ l := by
  induction l generalizing parents with
  | nil => simp [dedupByParent] at hp
  | cons a rest ih =>
    simp only [dedupByParent] at hp
    by_cases ha : parentDir a ∈ parents
    · rw [if_pos ha] at hp
      exact List.mem_cons_of_mem a (ih hp)
    · rw [if_neg ha] at hp
      rcases List.mem_cons.mp hp with rfl | hp'
      · exact List.mem_cons_self p rest
      · exact List.mem_cons_of_mem a (ih hp')

theorem parent_not_mem_of_mem_dedupByParent {l parents : List (List String)}
    {p : List String} (hp : p ∈ dedupByParent l parents) : parentDir p ∉ parents := by
  induction l generalizing parents with
  | nil => simp [dedupByParent] at hp
  | cons a rest ih =>
    simp only [dedupByParent] at hp
    by_cases ha : parentDir a ∈ parents
    · rw [if_pos ha] at hp
      exact ih hp
    · rw [if_neg ha] at hp
      rcases List.mem_cons.mp hp with rfl | hp'
      · exact ha
      · intro hmem
        exact ih hp' (List.mem_cons_of_mem _ hmem)

theorem pairwise_parents_dedupByParent (l parents : List (List String)) :
    (dedupByParent l parents).Pairwise (fun a b => parentDir a ≠ parentDir b) := by
  induction l generalizing parents with
  | nil => exact List.Pairwise.nil
  | cons a rest ih =>
    simp only [dedupByParent]
    by_cases ha : parentDir a ∈ parents
    · rw [if_pos ha]
      exact ih parents
    · rw [if_neg ha]
      refine List.pairwise_cons.mpr ⟨?_, ih _⟩
      intro b hb
      have := parent_not_mem_of_mem_dedupByParent hb
      intro hab
      exact this (by rw [← hab]; exact List.mem_cons_self _ _)

theorem dedupByParent_min {l : List (List String)} (hs : l.Pairwise rPath)
    {parents : List (List String)} {p : List String}
    (hp : p ∈ dedupByParent l parents) :
    ∀ q ∈ l, parentDir q = parentDir p → rPath p q := by
  induction l generalizing parents with
  | nil => simp [dedupByParent] at hp
  | cons a rest ih =>
    rw [List.pairwise_cons] at hs
    simp only [dedupByParent] at hp
    by_cases ha : parentDir a ∈ parents
    · rw [if_pos ha] at hp
      intro q hq hpar
      rcases List.mem_cons.mp hq with rfl | hq'
      · exact absurd (hpar ▸ ha) (parent_not_mem_of_mem_dedupByParent hp)
      · exact ih hs.2 hp q hq' hpar
    · rw [if_neg ha] at hp
      rcases List.mem_cons.mp hp with rfl | hp'
      · intro q hq _
        rcases List.mem_cons.mp hq with rfl | hq'
        · exact pathLeb_refl q
        · exact hs.1 q hq'
      · intro q hq hpar
        rcases List.mem_cons.mp hq with rfl | hq'
        · have hnp := parent_not_mem_of_mem_dedupByParent hp'
          exact absurd (by rw [hpar]; exact List.mem_cons_self _ _) hnp
        · exact ih hs.2 hp' q hq' hpar

theorem dedupByParent_covers {l : List (List String)} {q : List String}
    (hq : q ∈ l) :
    ∀ parents : List (List String), parentDir q ∉ parents →
      ∃ p ∈ dedupByParent l parents, parentDir p = parentDir q := by
  induction l with
  | nil => simp at hq
  | cons a rest ih =>
    intro parents hnot
    simp only [dedupByParent]
    by_cases ha : parentDir a ∈ parents
    · rw [if_pos ha]
      rcases List.mem_cons.mp hq with rfl | hq'
      · exact absurd ha hnot
      · exact ih hq' parents hnot
    · rw [if_neg ha]
      by_cases hqa : parentDir q = parentDir a
      · exact ⟨a, List.mem_cons_self _ _, hqa.symm⟩
      · have hq' : q ∈ rest := by
          rcases List.mem_cons.mp hq with rfl | h
          · exact absurd rfl hqa
          · exact h
        have hnot' : parentDir q ∉ parentDir a :: parents := by
          intro h
          rcases List.mem_cons.mp h with h' | h'
          · exact hqa h'
          · exact hnot h'
        obtain ⟨p, hpmem, hpar⟩ := ih hq' _ hnot'
        exact ⟨p, List.mem_cons_of_mem a hpmem, hpar⟩

/-- Membership in a left fold of unions. -/
theorem mem_foldl_union {α : Type} {β : Type} [DecidableEq β] (f : α → Finset β)
    (l : List α) (init : Finset β) (x : β) :
    x ∈ l.foldl (fun acc a => acc ∪ f a) init ↔ x ∈ init ∨ ∃ a ∈ l, x ∈ f a := by
  induction l generalizing init with
  | nil => simp
  | cons a rest ih =>
    simp only [List.foldl_cons, ih, Finset.mem_union, List.mem_cons]
    constructor
    · rintro ((h | h) | ⟨b, hb, hx⟩)
      · exact Or.inl h
      · exact Or.inr ⟨a, Or.inl rfl, h⟩
      · exact Or.inr ⟨b, Or.inr hb, hx⟩
    · rintro (h | ⟨b, rfl | hb, hx⟩)
      · exact Or.inl (Or.inl h)
      · exact Or.inl (Or.inr hx)
      · exact Or.inr ⟨b, hb, hx⟩

/-! ### Claim C2 -/

/-- C2, counterexample: on a line whose filename itself contains the text
`Filename: `, the code removes every occurrence of that text (Python
`str.replace`), while the claim prescribes only stripping the leading
prefix; the two results differ. -/
theorem locate_packages_replace_counterexample :
    _locate_packages_from_index ["Filename: Filename: b.deb"] []
        ≠ specIndexPackages ["Filename: Filename: b.deb"] []
    ∧ _locate_packages_from_index ["Filename: Filename: b.deb"] [] = {["b.deb"]}
    ∧ specIndexPackages ["Filename: Filename: b.deb"] [] = {["Filename: b.deb"]} :=
  ⟨by decide, by decide, by decide⟩

/-- C2, amended: the index reader returns exactly the set of paths obtained
by taking each line that begins with `Filename: `, stripping surrounding
whitespace, removing every occurrence of the text `Filename: `, and joining
the result onto the archive root; lines without the prefix contribute
nothing, and duplicates collapse by set semantics. -/
theorem find_packages_by_indices_amended (idxs : List (List String))
    (root p : List String) :
    p ∈ find_packages_by_indices idxs root ↔
      ∃ lines ∈ idxs, ∃ l ∈ lines, pyStartsWith l "Filename: " = true
        ∧ p = pyPathJoin root (pyRemoveAll (pyStrip l) "Filename: ") := by
  rw [find_packages_by_indices,
    mem_foldl_union (fun lines => _locate_packages_from_index lines root) idxs ∅ p]
  simp only [Finset.not_mem_empty, false_or, _locate_packages_from_index,
    List.mem_toFinset, List.mem_map, List.mem_filter]
  constructor
  · rintro ⟨lines, hlines, l, ⟨hl, hpre⟩, rfl⟩
    exact ⟨lines, hlines, l, hl, hpre, rfl⟩
  · rintro ⟨lines, hlines, l, hl, hpre, rfl⟩
    exact ⟨lines, hlines, l, ⟨hl, hpre⟩, rfl⟩

/-! ### Claims C4 and C10 -/

/-- C4: when no path fails with a non-`FileNotFoundError` error, every path
in the input has its unlink attempted — a missing file does not abort the
batch — and the returned boolean is true exactly when every deletion
succeeded. -/
theorem clean_packages_spec (ps : List (List String))
    (mode : List String → FileMode) (hnd : ps.Nodup)
    (hnp : ∀ p ∈ ps, mode p ≠ FileMode.noPerm) :
    (clean_packages_run ps mode).1 = ps
    ∧ (clean_packages_run ps mode).2
        = Except.ok (ps.all fun p => mode p == FileMode.present) := by
  induction ps with
  | nil => exact ⟨rfl, rfl⟩
  | cons a rest ih =>
    have ha : mode a ≠ FileMode.noPerm := hnp a (List.mem_cons_self a rest)
    have hrest := ih (List.Nodup.of_cons hnd)
      (fun p hp => hnp p (List.mem_cons_of_mem a hp))
    cases hmode : mode a with
    | present =>
      simp only [clean_packages_run, hmode, List.all_cons, hmode, beq_self_eq_true,
        Bool.true_and]
      exact ⟨by rw [hrest.1], by rw [hrest.2]⟩
    | missing =>
      refine ⟨?_, ?_⟩
      · simp only [clean_packages_run, hmode]
        rw [hrest.1]
      · simp only [clean_packages_run, hmode, List.all_cons]
        rw [hrest.2]
        simp [hmode, Except.map]
    | noPerm => exact absurd hmode ha

/-- C4, witness instance: three files of which one is missing — all three
unlinks are attempted and the result is `False`. -/
theorem clean_packages_spec_witness :
    (clean_packages_run [["a"], ["b"], ["c"]]
        (fun p => if p = ["b"] then FileMode.missing else FileMode.present)).1
      = [["a"], ["b"], ["c"]]
    ∧ (clean_packages_run [["a"], ["b"], ["c"]]
        (fun p => if p = ["b"] then FileMode.missing else FileMode.present)).2
      = Except.ok false := by
  have h := clean_packages_spec [["a"], ["b"], ["c"]]
    (fun p => if p = ["b"] then FileMode.missing else FileMode.present)
    (by decide) (by decide)
  have hall : ([["a"], ["b"], ["c"]].all fun p =>
      (fun p => if p = ["b"] then FileMode.missing else FileMode.present) p
        == FileMode.present) = false := by decide
  refine ⟨h.1, ?_⟩
  rw [h.2, hall]

/-- C10: a failure other than a missing file (for example a permission
error) is not caught: the loop aborts at the offending path — later paths
are never attempted — and no boolean is returned. -/
theorem clean_packages_error_propagates (l1 l2 : List (List String))
    (p : List String) (mode : List String → FileMode)
    (hp : mode p = FileMode.noPerm)
    (hl1 : ∀ q ∈ l1, mode q ≠ FileMode.noPerm) :
    (clean_packages_run (l1 ++ p :: l2) mode).1 = l1 ++ [p]
    ∧ (clean_packages_run (l1 ++ p :: l2) mode).2 = Except.error () := by
  induction l1 with
  | nil =>
    constructor <;> simp [clean_packages_run, hp]
  | cons a rest ih =>
    have ha : mode a ≠ FileMode.noPerm := hl1 a (List.mem_cons_self a rest)
    have hrest := ih (fun q hq => hl1 q (List.mem_cons_of_mem a hq))
    cases hmode : mode a with
    | present =>
      simp only [List.cons_append, clean_packages_run, hmode, List.append_eq]
      exact ⟨by rw [hrest.1], by rw [hrest.2]⟩
    | missing =>
      refine ⟨?_, ?_⟩
      · simp only [List.cons_append, clean_packages_run, hmode, List.append_eq]
        rw [hrest.1]
      · simp only [List.cons_append, clean_packages_run, hmode, List.append_eq]
        rw [hrest.2]
        rfl
    | noPerm => exact absurd hmode ha

/-- C10, witness instance: with the second of three paths failing on a
permission error, only the first two unlinks are attempted and the
exception escapes. -/
theorem clean_packages_error_propagates_witness :
    (clean_packages_run [["a"], ["b"], ["c"]]
        (fun p => if p = ["b"] then FileMode.noPerm else FileMode.present)).1
      = [["a"], ["b"]]
    ∧ (clean_packages_run [["a"], ["b"], ["c"]]
        (fun p => if p = ["b"] then FileMode.noPerm else FileMode.present)).2
      = Except.error () := by
  have h := clean_packages_error_propagates [["a"]] [["c"]] ["b"]
    (fun p => if p = ["b"] then FileMode.noPerm else FileMode.present)
    (by decide) (by decide)
  exact ⟨h.1, h.2⟩

/-! ### Claims C8 and C9 -/

/-- C8: publishing a snapshot whose directory does not exist fails with
`Snapshot does not exist` and performs no filesystem operation, leaving any
existing publish symlink unchanged; when the directory exists, an existing
publish symlink is first unlinked and then a fresh `publish` symlink to the
snapshot directory is created. -/
theorem publish_snapshot_action_spec (basePath name : String)
    (isDir isLink : Bool) :
    (isDir = false →
      _on_publish_snapshot_action basePath name isDir isLink
          = Except.error "Snapshot does not exist")
    ∧ (isDir = true → isLink = true →
      _on_publish_snapshot_action basePath name isDir isLink
          = Except.ok [FsOp.unlinkOp (basePath ++ "/" ++ publishName),
              FsOp.symlinkOp (basePath ++ "/" ++ name)
                (basePath ++ "/" ++ publishName)])
    ∧ (isDir = true → isLink = false →
      _on_publish_snapshot_action basePath name isDir isLink
          = Except.ok [FsOp.symlinkOp (basePath ++ "/" ++ name)
              (basePath ++ "/" ++ publishName)]) := by
  cases isDir <;> cases isLink <;>
    exact ⟨fun h => by simp_all [_on_publish_snapshot_action],
      fun h h' => by simp_all [_on_publish_snapshot_action],
      fun h h' => by simp_all [_on_publish_snapshot_action]⟩

/-- C8, witness instance: publishing the missing snapshot `snapshot-9999`
fails with the exact message while an existing publish link sees no
operation; publishing an existing one replaces the link. -/
theorem publish_snapshot_action_spec_witness :
    _on_publish_snapshot_action "/srv" "snapshot-9999" false true
        = Except.error "Snapshot does not exist"
    ∧ _on_publish_snapshot_action "/srv" "snapshot-1" true true
        = Except.ok [FsOp.unlinkOp "/srv/publish",
            FsOp.symlinkOp "/srv/snapshot-1" "/srv/publish"] := by
  refine ⟨(publish_snapshot_action_spec "/srv" "snapshot-9999" false true).1 rfl, ?_⟩
  have h := (publish_snapshot_action_spec "/srv" "snapshot-1" true true).2.1 rfl rfl
  rw [h]
  rfl

/-- C9: a delete-snapshot request whose name does not start with
`snapshot-` fails before any filesystem operation; a name with the prefix
leads to exactly one recursive removal of that directory under the base
path. -/
theorem delete_snapshot_action_spec (basePath name : String) :
    (pyStartsWith name "snapshot-" = false →
      _on_delete_snapshot_action basePath name
          = Except.error ("Invalid snapshot name: " ++ name))
    ∧ (pyStartsWith name "snapshot-" = true →
      _on_delete_snapshot_action basePath name
          = Except.ok [FsOp.rmtreeOp (basePath ++ "/" ++ name)]) := by
  constructor
  · intro h
    simp [_on_delete_snapshot_action, h]
  · intro h
    simp [_on_delete_snapshot_action, h]

/-- C9, witness instance: deleting `not-a-snapshot` fails with no
operation; deleting `snapshot-1` removes exactly that directory. -/
theorem delete_snapshot_action_spec_witness :
    _on_delete_snapshot_action "/srv" "not-a-snapshot"
        = Except.error "Invalid snapshot name: not-a-snapshot"
    ∧ _on_delete_snapshot_action "/srv" "snapshot-1"
        = Except.ok [FsOp.rmtreeOp "/srv/snapshot-1"] := by
  constructor
  · have h := (delete_snapshot_action_spec "/srv" "not-a-snapshot").1 (by decide)
    rw [h]
    rfl
  · have h := (delete_snapshot_action_spec "/srv" "snapshot-1").2 (by decide)
    rw [h]
    rfl

/-! ### Claim C6 -/

/-- C6: the index locator returns only matches of the recursive `Packages*`
search, at most one per containing directory; each returned index is the
first (least) element of the sorted match list within its directory, and
every directory with a match is represented. -/
theorem get_package_indices_one_per_dir (fs : FileSys) (dists : List String) :
    (∀ p ∈ _get_package_indices fs dists,
        p ∈ globRec fs dists (fun n => pyStartsWith n "Packages"))
    ∧ (∀ p ∈ _get_package_indices fs dists, ∀ q ∈ _get_package_indices fs dists,
        parentDir p = parentDir q → p = q)
    ∧ (∀ p ∈ _get_package_indices fs dists,
        ∀ q ∈ globRec fs dists (fun n => pyStartsWith n "Packages"),
          parentDir q = parentDir p → rPath p q)
    ∧ (∀ q ∈ globRec fs dists (fun n => pyStartsWith n "Packages"),
        ∃ p ∈ _get_package_indices fs dists, parentDir p = parentDir q) := by
  haveI : IsTotal (List String) rPath := ⟨pathLeb_total⟩
  haveI : IsTrans (List String) rPath := ⟨fun _ _ _ => pathLeb_trans⟩
  have hperm := List.perm_insertionSort rPath
    (globRec fs dists (fun n => pyStartsWith n "Packages"))
  have hsort : (sortPaths (globRec fs dists
      (fun n => pyStartsWith n "Packages"))).Pairwise rPath :=
    List.sorted_insertionSort rPath _
  refine ⟨?_, ?_, ?_, ?_⟩
  · intro p hp
    exact hperm.mem_iff.mp (mem_of_mem_dedupByParent hp)
  · intro p hp q hq hpar
    by_cases hpq : p = q
    · exact hpq
    · have hsymm : Symmetric (fun a b : List String => parentDir a ≠ parentDir b) :=
        fun a b hab h => hab h.symm
      exact absurd hpar
        ((pairwise_parents_dedupByParent (sortPaths _) []).forall hsymm hp hq hpq)
  · intro p hp q hq hpar
    exact dedupByParent_min hsort hp q (hperm.mem_iff.mpr hq) hpar
  · intro q hq
    obtain ⟨p, hpmem, hpar⟩ :=
      dedupByParent_covers (hperm.mem_iff.mpr hq) [] (by simp)
    exact ⟨p, hpmem, hpar⟩

/-- C6, witness instance: in the sample mirror, `dists` holds both
`Packages` and `Packages.gz` in one directory; the kept index precedes the
other match in sort order. -/
theorem get_package_indices_one_per_dir_witness :
    rPath ["srv", "mirror", "m", "dists", "Packages"]
      ["srv", "mirror", "m", "dists", "Packages.gz"] :=
  (get_package_indices_one_per_dir sampleFS ["srv", "mirror", "m", "dists"]).2.2.1
    ["srv", "mirror", "m", "dists", "Packages"] (by decide)
    ["srv", "mirror", "m", "dists", "Packages.gz"] (by decide) (by decide)

/-! ### Claim C1 -/

/-- C1: the deletion candidates of `_check_packages` are exactly the `.deb`
files found by the recursive scan of the live mirror minus the union of the
packages referenced by the indices of the live mirror and of every existing
snapshot; consequently a package referenced by any snapshot's indices is
never a candidate, even when the live indices no longer reference it. -/
theorem check_packages_correct (fs : FileSys) (basePath : List String) :
    (∀ p, p ∈ _check_packages fs basePath ↔
        p ∈ debsUnder fs (basePath ++ ["mirror"])
        ∧ ∀ t ∈ _list_snapshots fs basePath ++ [basePath ++ ["mirror"]],
            p ∉ treeIndexedPackages fs t)
    ∧ ∀ s ∈ _list_snapshots fs basePath, ∀ p ∈ treeIndexedPackages fs s,
        p ∉ _check_packages fs basePath := by
  have hmain : ∀ p, p ∈ _check_packages fs basePath ↔
      p ∈ debsUnder fs (basePath ++ ["mirror"])
      ∧ ∀ t ∈ _list_snapshots fs basePath ++ [basePath ++ ["mirror"]],
          p ∉ treeIndexedPackages fs t := by
    intro p
    simp only [_check_packages, Finset.mem_sdiff,
      mem_foldl_union (treeIndexedPackages fs)
        (_list_snapshots fs basePath ++ [basePath ++ ["mirror"]]) ∅ p,
      Finset.not_mem_empty, false_or, not_exists, not_and]
  refine ⟨hmain, ?_⟩
  intro s hs p hp hmem
  exact ((hmain p).mp hmem).2 s (List.mem_append_left _ hs) hp

/-- C1, witness instance: in the sample mirror the live index no longer
references `b.deb`, but the snapshot's copied index does (through the
`pool` symlink back into the live mirror), so `b.deb` is not a deletion
candidate. -/
theorem check_packages_correct_witness :
    ["srv", "mirror", "m", "pool", "b.deb"] ∉ _check_packages sampleFS ["srv"] :=
  (check_packages_correct sampleFS ["srv"]).2
    ["srv", "snapshot-1"] (by decide)
    ["srv", "mirror", "m", "pool", "b.deb"] (by decide)

/-! ### Claim C5 -/

theorem decDigitsFuel_length_le :
    ∀ fuel n k : Nat, n < fuel → 0 < k → n < 10 ^ k →
      (decDigitsFuel fuel n).length ≤ k := by
  intro fuel
  induction fuel with
  | zero => intro n k hn _ _; omega
  | succ fuel ih =>
    intro n k hn hk hnk
    by_cases h10 : n < 10
    · simp only [decDigitsFuel, if_pos h10, List.length_cons, List.length_nil]
      omega
    · simp only [decDigitsFuel, if_neg h10, List.length_append, List.length_cons,
        List.length_nil]
      cases k with
      | zero => omega
      | succ k' =>
        have hk' : 0 < k' := by
          rcases Nat.eq_zero_or_pos k' with rfl | h
          · simp at hnk; omega
          · exact h
        have hdiv : n / 10 < 10 ^ k' := by
          rw [Nat.div_lt_iff_lt_mul (by norm_num)]
          calc n < 10 ^ (k' + 1) := hnk
            _ = 10 ^ k' * 10 := by rw [pow_succ]
        have hfuel : n / 10 < fuel :=
          lt_of_lt_of_le (Nat.div_lt_self (by omega) (by norm_num)) (by omega)
        have := ih (n / 10) k' hfuel hk' hdiv
        omega

theorem decDigits_length_le {n k : Nat} (hk : 0 < k) (h : n < 10 ^ k) :
    (decDigits n).length ≤ k :=
  decDigitsFuel_length_le (n + 1) n k (by omega) hk h

theorem zeroPad_length {w : Nat} {s : List Char} (h : s.length ≤ w) :
    (zeroPad w s).length = w := by
  simp only [zeroPad, List.length_append, List.length_replicate]
  omega

theorem strftimeYmdHMS_length (t : PyDateTime) (hy : t.year < 10000)
    (hmo : t.month < 100) (hd : t.day < 100) (hh : t.hour < 100)
    (hmi : t.minute < 100) (hs : t.second < 100) :
    (strftimeYmdHMS t).length = 14 := by
  have h1 : (decDigits t.year).length ≤ 4 :=
    decDigits_length_le (by norm_num) (by norm_num; omega)
  have h2 : (decDigits t.month).length ≤ 2 :=
    decDigits_length_le (by norm_num) (by norm_num; omega)
  have h3 : (decDigits t.day).length ≤ 2 :=
    decDigits_length_le (by norm_num) (by norm_num; omega)
  have h4 : (decDigits t.hour).length ≤ 2 :=
    decDigits_length_le (by norm_num) (by norm_num; omega)
  have h5 : (decDigits t.minute).length ≤ 2 :=
    decDigits_length_le (by norm_num) (by norm_num; omega)
  have h6 : (decDigits t.second).length ≤ 2 :=
    decDigits_length_le (by norm_num) (by norm_num; omega)
  show (zeroPad 4 (decDigits t.year) ++ zeroPad 2 (decDigits t.month)
    ++ zeroPad 2 (decDigits t.day) ++ zeroPad 2 (decDigits t.hour)
    ++ zeroPad 2 (decDigits t.minute) ++ zeroPad 2 (decDigits t.second)).length = 14
  simp only [List.length_append, zeroPad_length h1, zeroPad_length h2,
    zeroPad_length h3, zeroPad_length h4, zeroPad_length h5, zeroPad_length h6]

/-- C5, counterexample: at a moment when the local clock is one hour ahead
of UTC, the snapshot name is built from the local reading
(`datetime.now()`), not the UTC reading the claim prescribes. -/
theorem snapshot_name_not_utc_counterexample :
    _get_snapshot_name ⟨⟨2021, 6, 1, 12, 0, 0⟩, ⟨2021, 6, 1, 13, 0, 0⟩⟩
        ≠ "snapshot-" ++ strftimeYmdHMS
            (SysClock.mk ⟨2021, 6, 1, 12, 0, 0⟩ ⟨2021, 6, 1, 13, 0, 0⟩).utcNow
    ∧ _get_snapshot_name ⟨⟨2021, 6, 1, 12, 0, 0⟩, ⟨2021, 6, 1, 13, 0, 0⟩⟩
        = "snapshot-20210601130000" :=
  ⟨by decide, by decide⟩

/-- C5, amended: every snapshot directory is named `snapshot-` followed by
the creation time as read from the system's local clock (`datetime.now()`),
formatted `YYYYMMDDHHMMSS` (14 zero-padded digits); the published pointer
is always named `publish`. -/
theorem snapshot_name_local_time (c : SysClock)
    (hy : c.localNow.year < 10000) (hmo : c.localNow.month < 100)
    (hd : c.localNow.day < 100) (hh : c.localNow.hour < 100)
    (hmi : c.localNow.minute < 100) (hs : c.localNow.second < 100) :
    _get_snapshot_name c = "snapshot-" ++ strftimeYmdHMS c.localNow
    ∧ (strftimeYmdHMS c.localNow).length = 14
    ∧ pyStartsWith (_get_snapshot_name c) "snapshot-" = true
    ∧ publishName = "publish" := by
  refine ⟨rfl, strftimeYmdHMS_length _ hy hmo hd hh hmi hs, ?_, rfl⟩
  show ("snapshot-".data.isPrefixOf
    ("snapshot-".data ++ (strftimeYmdHMS c.localNow).data)) = true
  rw [List.isPrefixOf_iff_prefix]
  exact List.prefix_append _ _

/-- C5, witness instance for the amended claim. -/
theorem snapshot_name_local_time_witness :
    _get_snapshot_name ⟨⟨2021, 6, 1, 12, 0, 0⟩, ⟨2021, 6, 1, 13, 0, 0⟩⟩
        = "snapshot-" ++ strftimeYmdHMS (⟨2021, 6, 1, 13, 0, 0⟩ : PyDateTime)
    ∧ (strftimeYmdHMS (⟨2021, 6, 1, 13, 0, 0⟩ : PyDateTime)).length = 14 := by
  have h := snapshot_name_local_time ⟨⟨2021, 6, 1, 12, 0, 0⟩, ⟨2021, 6, 1, 13, 0, 0⟩⟩
    (by decide) (by decide) (by decide) (by decide) (by decide) (by decide)
  exact ⟨h.1, h.2.1⟩

/-! ### Claim C7 -/

theorem ratFloor_eq_floor (q : ℚ) : Rat.floor q = ⌊q⌋ := by
  rw [Rat.floor_def', Rat.floor_def]

theorem roundHalfEven_intCast (n : ℤ) : roundHalfEven ((n : ℤ) : ℚ) = n := by
  have h1 : Rat.floor ((n : ℤ) : ℚ) = n := by
    rw [ratFloor_eq_floor]; exact Int.floor_intCast n
  simp [roundHalfEven, h1]

theorem fmt1_intCast {q : ℚ} {n : ℤ} (hq : q * 10 = ((n : ℤ) : ℚ)) :
    fmt1 q = toString (n / 10) ++ "." ++ toString (n % 10) := by
  unfold fmt1
  rw [hq, roundHalfEven_intCast]

theorem convertBytesLoop_eq (units : List String) :
    ∀ (x : ℚ) (k : ℕ), k < units.length →
      (∀ j, j < k → ¬ x / 1024 ^ j < 1024) → x / 1024 ^ k < 1024 →
      convertBytesLoop units x = some (fmt1 (x / 1024 ^ k) ++ " " ++ units.getD k "") := by
  induction units with
  | nil => intro x k hk _ _; simp at hk
  | cons u us ih =>
    intro x k hk hlow hhi
    have hx0 : x / 1024 ^ 0 = x := by norm_num
    cases k with
    | zero =>
      rw [hx0] at hhi
      simp only [convertBytesLoop, if_pos hhi, List.getD_cons_zero]
      rw [hx0]
    | succ k' =>
      have hnot : ¬ x < 1024 := by
        have := hlow 0 (Nat.succ_pos k')
        rwa [hx0] at this
      have hstep : ∀ j : ℕ, x / 1024 / 1024 ^ j = x / 1024 ^ (j + 1) := by
        intro j
        rw [div_div, ← pow_succ']
      simp only [convertBytesLoop, if_neg hnot, List.getD_cons_succ]
      rw [← hstep k']
      refine ih (x / 1024) k' (by simpa using hk) ?_ (by rw [hstep k']; exact hhi)
      intro j hj
      rw [hstep j]
      exact hlow (j + 1) (by omega)

theorem specUnitIdx_spec (n : ℕ) (h : n < 1024 ^ 5) :
    specUnitIdx n < 5 ∧ n < 1024 ^ (specUnitIdx n + 1)
      ∧ ∀ j, j < specUnitIdx n → 1024 ^ (j + 1) ≤ n := by
  unfold specUnitIdx
  split_ifs with h1 h2 h3 h4
  · exact ⟨by norm_num, by simpa using h1, by omega⟩
  · refine ⟨by norm_num, by simpa using h2, ?_⟩
    intro j hj
    have hj0 : j = 0 := by omega
    subst hj0
    simpa using Nat.le_of_not_lt h1
  · refine ⟨by norm_num, by simpa using h3, ?_⟩
    intro j hj
    have : j = 0 ∨ j = 1 := by omega
    rcases this with rfl | rfl
    · simpa using Nat.le_of_not_lt h1
    · simpa using Nat.le_of_not_lt h2
  · refine ⟨by norm_num, by simpa using h4, ?_⟩
    intro j hj
    have : j = 0 ∨ j = 1 ∨ j = 2 := by omega
    rcases this with rfl | rfl | rfl
    · simpa using Nat.le_of_not_lt h1
    · simpa using Nat.le_of_not_lt h2
    · simpa using Nat.le_of_not_lt h3
  · refine ⟨by norm_num, by simpa using h, ?_⟩
    intro j hj
    have : j = 0 ∨ j = 1 ∨ j = 2 ∨ j = 3 := by omega
    rcases this with rfl | rfl | rfl | rfl
    · simpa using Nat.le_of_not_lt h1
    · simpa using Nat.le_of_not_lt h2
    · simpa using Nat.le_of_not_lt h3
    · simpa using Nat.le_of_not_lt h4

/-- C7: for every natural `n` below `1024^5`, `convert_bytes` returns the
value scaled down by successive factors of 1024, formatted `{:.1f}` with
the smallest unit among bytes/KB/MB/GB/TB at which the scaled value is
below 1024; in particular, for `n` below 1024 the result is `{n:.1f}`
followed by ` bytes`. -/
theorem convert_bytes_correct (n : ℕ) (h : n < 1024 ^ 5) :
    convert_bytes (n : ℚ)
        = some (fmt1 ((n : ℚ) / 1024 ^ specUnitIdx n) ++ " " ++ unitName (specUnitIdx n))
    ∧ (n : ℚ) / 1024 ^ specUnitIdx n < 1024
    ∧ (∀ j, j < specUnitIdx n → ¬ (n : ℚ) / 1024 ^ j < 1024)
    ∧ (n < 1024 → convert_bytes (n : ℚ) = some (fmt1 (n : ℚ) ++ " bytes")) := by
  have key : ∀ k : ℕ, ((n : ℚ) / 1024 ^ k < 1024) ↔ n < 1024 ^ (k + 1) := by
    intro k
    rw [div_lt_iff₀ (by positivity),
      show ((1024 : ℚ) * 1024 ^ k) = ((1024 ^ (k + 1) : ℕ) : ℚ) by push_cast; ring,
      Nat.cast_lt]
  obtain ⟨hk5, hup, hdown⟩ := specUnitIdx_spec n h
  have hhi : (n : ℚ) / 1024 ^ specUnitIdx n < 1024 := (key _).mpr hup
  have hlow : ∀ j, j < specUnitIdx n → ¬ (n : ℚ) / 1024 ^ j < 1024 := by
    intro j hj
    rw [key j]
    exact Nat.not_lt_of_le (hdown j hj)
  have hmain : convert_bytes (n : ℚ)
      = some (fmt1 ((n : ℚ) / 1024 ^ specUnitIdx n) ++ " " ++ unitName (specUnitIdx n)) :=
    convertBytesLoop_eq convertBytesUnits (n : ℚ) (specUnitIdx n)
      (by simpa [convertBytesUnits] using hk5) hlow hhi
  refine ⟨hmain, hhi, hlow, ?_⟩
  intro hsmall
  have hidx : specUnitIdx n = 0 := by simp [specUnitIdx, hsmall]
  rw [hmain, hidx]
  rw [show ((n : ℚ) / 1024 ^ 0) = (n : ℚ) by norm_num]
  rw [String.append_assoc]
  rfl

/-- C7, witness instance: `convert_bytes 1048576 = "1.0 MB"` and
`convert_bytes 500 = "500.0 bytes"`. -/
theorem convert_bytes_correct_witness :
    (1048576 : ℕ) < 1024 ^ 5
    ∧ convert_bytes ((1048576 : ℕ) : ℚ) = some "1.0 MB"
    ∧ convert_bytes ((500 : ℕ) : ℚ) = some "500.0 bytes" := by
  refine ⟨by norm_num, ?_, ?_⟩
  · have h := (convert_bytes_correct 1048576 (by norm_num)).1
    have hidx : specUnitIdx 1048576 = 2 := by decide
    rw [hidx] at h
    have hq : ((1048576 : ℕ) : ℚ) / 1024 ^ 2 * 10 = ((10 : ℤ) : ℚ) := by norm_num
    rw [h, fmt1_intCast hq]
    decide
  · have h := (convert_bytes_correct 500 (by norm_num)).2.2.2 (by norm_num)
    have hq : ((500 : ℕ) : ℚ) * 10 = ((5000 : ℤ) : ℚ) := by norm_num
    rw [h, fmt1_intCast hq]
    decide

/-! ### Claim C3 -/

theorem string_data_append (a b : String) : (a ++ b).data = a.data ++ b.data := rfl

theorem string_mk_data (s : String) : String.mk s.data = s := rfl

theorem splitSlash_append (a b : List Char) :
    ∀ cur, splitSlash cur (a ++ '/' :: b) = splitSlash cur a ++ splitSlash [] b := by
  induction a with
  | nil => intro cur; rfl
  | cons c a' ih =>
    intro cur
    by_cases hc : c = '/'
    · subst hc
      simp [splitSlash, ih]
    · simp [splitSlash, hc, ih]

theorem splitSlash_no_slash (l : List Char) (h : ('/' : Char) ∉ l) :
    ∀ cur, splitSlash cur l = [String.mk (cur.reverse ++ l)] := by
  induction l with
  | nil => intro cur; simp [splitSlash]
  | cons c l' ih =>
    intro cur
    have hc : c ≠ '/' := fun hcc => h (hcc ▸ List.mem_cons_self c l')
    have hl' : ('/' : Char) ∉ l' := fun hmem => h (List.mem_cons_of_mem c hmem)
    simp only [splitSlash, if_neg hc, ih hl']
    simp

theorem pathComps_append (x y : String) :
    pathComps (x ++ "/" ++ y) = pathComps x ++ pathComps y := by
  unfold pathComps
  rw [string_data_append, string_data_append]
  rw [show ("/" : String).data = ['/'] from rfl]
  rw [List.append_assoc]
  rw [show (['/'] ++ y.data : List Char) = '/' :: y.data from rfl]
  rw [splitSlash_append x.data y.data []]
  rw [List.filter_append]

theorem pathComps_single (c : String) (h1 : c ≠ "") (h2 : c ≠ ".")
    (h3 : ('/' : Char) ∉ c.data) : pathComps c = [c] := by
  unfold pathComps
  rw [splitSlash_no_slash c.data h3 []]
  simp only [List.reverse_nil, List.nil_append, string_mk_data]
  simp [h1, h2]

theorem foldl_join_prepend (ds : List String) :
    ∀ a b, ds.foldl (fun acc d => acc ++ "/" ++ d) (a ++ b)
      = a ++ ds.foldl (fun acc d => acc ++ "/" ++ d) b := by
  induction ds with
  | nil => intro a b; rfl
  | cons d ds ih =>
    intro a b
    simp only [List.foldl_cons]
    rw [String.append_assoc a b "/", String.append_assoc a (b ++ "/") d, ih]

theorem joinComps_cons (c : String) (cs : List String) (h : cs ≠ []) :
    joinComps (c :: cs) = c ++ "/" ++ joinComps cs := by
  cases cs with
  | nil => exact absurd rfl h
  | cons d ds =>
    show (d :: ds).foldl (fun acc e => acc ++ "/" ++ e) c
      = c ++ "/" ++ joinComps (d :: ds)
    simp only [List.foldl_cons]
    rw [show (c ++ "/" ++ d : String) = (c ++ "/") ++ d from rfl,
      foldl_join_prepend ds (c ++ "/") d]
    rfl

theorem pathComps_joinComps (rs : List String)
    (h : ∀ c ∈ rs, c ≠ "" ∧ c ≠ "." ∧ ('/' : Char) ∉ c.data) (hne : rs ≠ []) :
    pathComps (joinComps rs) = rs := by
  induction rs with
  | nil => exact absurd rfl hne
  | cons c cs ih =>
    obtain ⟨h1, h2, h3⟩ := h c (List.mem_cons_self c cs)
    cases hcs : cs with
    | nil =>
      show pathComps (joinComps [c]) = [c]
      exact pathComps_single c h1 h2 h3
    | cons d ds =>
      rw [← hcs]
      have hcs' : cs ≠ [] := by rw [hcs]; exact List.cons_ne_nil d ds
      rw [joinComps_cons c cs hcs', pathComps_append,
        pathComps_single c h1 h2 h3,
        ih (fun e he => h e (List.mem_cons_of_mem c he)) hcs']
      rfl

theorem dropCommon_append (P X : List String) : dropCommon (P ++ X) P = (X, []) := by
  induction P with
  | nil =>
    cases X with
    | nil => rfl
    | cons x xs => rfl
  | cons p P' ih =>
    simp [dropCommon, ih]

theorem relComps_append (P X : List String) : relComps (P ++ X) P = X := by
  simp [relComps, dropCommon_append]

theorem regexAnchorMatch_self_append (p rest : List Char) :
    regexAnchorMatch p (p ++ rest) = true := by
  induction p with
  | nil => rfl
  | cons c cs ih =>
    simp only [List.cons_append, regexAnchorMatch, List.append_eq]
    rw [ih]
    simp

/-- C3: with `strip-mirror-name` enabled and a known mirror hostname `m`,
a directory whose path relative to the mirror root is `m/<rest>` is mapped
to `<rest>` (the host component is stripped); with the option disabled it
is left as `m/<rest>`. -/
theorem build_subtree_strip (path m : String) (rs : List String)
    (hm1 : m ≠ "") (hm2 : m ≠ ".") (hm3 : ('/' : Char) ∉ m.data)
    (hrs : rs ≠ [])
    (hcomp : ∀ c ∈ rs, c ≠ "" ∧ c ≠ "." ∧ ('/' : Char) ∉ c.data) :
    _build_subtree true none [m] (path ++ "/" ++ m ++ "/" ++ joinComps rs) path
        = joinComps rs
    ∧ _build_subtree false none [m] (path ++ "/" ++ m ++ "/" ++ joinComps rs) path
        = m ++ "/" ++ joinComps rs := by
  have hmc : pathComps m = [m] := pathComps_single m hm1 hm2 hm3
  have hrc : pathComps (joinComps rs) = rs := pathComps_joinComps rs hcomp hrs
  have hroot : pathComps (path ++ "/" ++ m ++ "/" ++ joinComps rs)
      = pathComps path ++ (m :: rs) := by
    rw [pathComps_append, pathComps_append, hmc, hrc, List.append_assoc]
    rfl
  have hrel : relpathStr (path ++ "/" ++ m ++ "/" ++ joinComps rs) path
      = joinComps (m :: rs) := by
    unfold relpathStr
    rw [hroot, relComps_append]
  have hjoin : joinComps (m :: rs) = m ++ "/" ++ joinComps rs :=
    joinComps_cons m rs hrs
  have hmatch : regexAnchorMatch m.data (joinComps (m :: rs)).data = true := by
    rw [hjoin, string_data_append, string_data_append, List.append_assoc]
    exact regexAnchorMatch_self_append m.data _
  have hcomps_cons : ∀ c ∈ m :: rs, c ≠ "" ∧ c ≠ "." ∧ ('/' : Char) ∉ c.data := by
    intro c hc
    rcases List.mem_cons.mp hc with rfl | hc'
    · exact ⟨hm1, hm2, hm3⟩
    · exact hcomp c hc'
  have hstripped : relpathStr (joinComps (m :: rs)) m = joinComps rs := by
    unfold relpathStr
    rw [pathComps_joinComps (m :: rs) hcomps_cons (List.cons_ne_nil m rs), hmc,
      show (m :: rs : List String) = [m] ++ rs from rfl, relComps_append]
  constructor
  · show (if regexAnchorMatch m.data (relpathStr
        (path ++ "/" ++ m ++ "/" ++ joinComps rs) path).data then
          relpathStr (relpathStr (path ++ "/" ++ m ++ "/" ++ joinComps rs) path) m
        else relpathStr (path ++ "/" ++ m ++ "/" ++ joinComps rs) path)
      = joinComps rs
    rw [hrel, if_pos hmatch, hstripped]
  · show relpathStr (path ++ "/" ++ m ++ "/" ++ joinComps rs) path
      = m ++ "/" ++ joinComps rs
    rw [hrel, hjoin]

/-- C3, witness instance: with mirror host `example.com`, the live path
`mirror/example.com/ubuntu` maps to `ubuntu` when stripping is enabled and
to `example.com/ubuntu` when it is disabled. -/
theorem build_subtree_strip_witness :
    _build_subtree true none ["example.com"] "mirror/example.com/ubuntu" "mirror"
        = "ubuntu"
    ∧ _build_subtree false none ["example.com"] "mirror/example.com/ubuntu" "mirror"
        = "example.com/ubuntu" := by
  have h := build_subtree_strip "mirror" "example.com" ["ubuntu"]
    (by decide) (by decide) (by decide) (by decide) (by decide)
  exact ⟨h.1, h.2⟩

end AptMirror
